import Mathlib

/-!
Shallow embedding of `autohedger.py` (cotswold216/cryptohedger).

Python floats are modelled as exact rationals (`Rat`); datetimes are
modelled as integer minutes (`Int`), the granularity at which the
simulation clock ticks.  Python `dict`s (insertion ordered, unique keys)
are modelled as association lists `List (String × α)`; `collections.Counter`
update (additive) and `dict.update` (replacing) are modelled separately,
because `Hedger.get_hedge_quantities` mixes both at runtime.
Exceptions are modelled with `Except String`.
-/

namespace AutoHedger

/-- Python dict lookup returning the first binding of a key. -/
def lookup? {α : Type} (m : List (String × α)) (k : String) : Option α :=
  match m with
  | [] => none
  | kv :: rest => if kv.1 = k then some kv.2 else lookup? rest k

/-- Python `k in d` membership test. -/
def containsKey {α : Type} (m : List (String × α)) (k : String) : Bool :=
  (lookup? m k).isSome

/-- Python `Counter.__getitem__`: a missing key reads as 0. -/
def lookupD (m : List (String × Rat)) (k : String) : Rat :=
  (lookup? m k).getD 0

/-- Apply a function to the value stored at a key, keeping its slot. -/
def mapAt {α : Type} (m : List (String × α)) (k : String) (f : α → α) :
    List (String × α) :=
  m.map (fun kv => if kv.1 = k then (kv.1, f kv.2) else kv)

/-- Python dict assignment `d[k] = v`: overwrite in place if the key is
present, otherwise append the new binding (insertion order). -/
def dictSet {α : Type} (m : List (String × α)) (k : String) (v : α) :
    List (String × α) :=
  if containsKey m k then mapAt m k (fun _ => v) else m ++ [(k, v)]

/-- One key of `Counter.update`: `self[k] = self.get(k, 0) + v`. -/
def counterAdd (m : List (String × Rat)) (k : String) (v : Rat) :
    List (String × Rat) :=
  dictSet m k (lookupD m k + v)

/-- Python `Counter.update(d)`: key-wise additive merge (zeros are retained). -/
def counterUpdate (c d : List (String × Rat)) : List (String × Rat) :=
  d.foldl (fun c kv => counterAdd c kv.1 kv.2) c

/-- Plain `dict.update(d)`: key-wise replacing merge. -/
def dictUpdate {α : Type} (c d : List (String × α)) : List (String × α) :=
  d.foldl (fun c kv => dictSet c kv.1 kv.2) c

/-- Sum of the values of a mapping, as in `sum(d.values())`. -/
def sumValues (m : List (String × Rat)) : Rat :=
  (m.map Prod.snd).sum

/- Module level constants of autohedger.py. -/

def TRADE_DIRECTION_BUY : String := "buy"

def TRADE_DIRECTION_SELL : String := "sell"

def STRATEGY_SLOW : String := "SLOW"

def STRATEGY_NORMAL : String := "NORMAL"

def STRATEGY_STEALTH : String := "STEALTH"

/-- Python `STRATEGY_PARAMETERS[SLOW]["client_volume_max"]` (1e5 USD). -/
def slow_client_volume_max : Rat := 100000

/-- Python `STRATEGY_PARAMETERS[SLOW]["time_window"]` (minutes). -/
def slow_time_window : Int := 10

/-- Python `STRATEGY_PARAMETERS[STEALTH]["client_volume_trigger"]` (1e7 USD). -/
def stealth_client_volume_trigger : Rat := 10000000

/-- Python `STRATEGY_PARAMETERS[STEALTH]["execution_chunks"]`. -/
def stealth_execution_chunks : Nat := 5

def SUPPORTED_STRATEGIES : List String :=
  [STRATEGY_SLOW, STRATEGY_NORMAL, STRATEGY_STEALTH]

/-- The `Trade` record of autohedger.py. -/
structure Trade where
  book : String
  tradeTime : Int
  asset : String
  denominated : String
  quantity : Rat
  price : Rat
deriving DecidableEq

/-- Direction fixed at construction: non-negative quantity means buy. -/
def Trade.direction (t : Trade) : String :=
  if t.quantity ≥ 0 then TRADE_DIRECTION_BUY else TRADE_DIRECTION_SELL

/-- The `notional` column computed by `load_client_trades`:
quantity times price. -/
def Trade.notional (t : Trade) : Rat :=
  t.quantity * t.price

/-- The `Position` class: asset, running quantity and the trade list. -/
structure Position where
  asset : String
  quantity : Rat
  trades : List Trade
deriving DecidableEq

/-- Python `Position.__init__`. -/
def Position.init (asset : String) : Position :=
  ⟨asset, 0, []⟩

/-- Python `Position.trade_add`: append the trade, bump the running quantity. -/
def Position.trade_add (p : Position) (t : Trade) : Position :=
  { p with trades := p.trades ++ [t], quantity := p.quantity + t.quantity }

/-- Python `Position.get_trades`: trades whose timestamp is at most `asOf`. -/
def Position.get_trades (p : Position) (asOf : Int) : List Trade :=
  p.trades.filter (fun t => decide (t.tradeTime ≤ asOf))

/-- Python `Position.get_quantity`: the cached total when no time is given,
otherwise the recomputed sum over the filtered trade list. -/
def Position.get_quantity (p : Position) (asOf : Option Int) : Rat :=
  match asOf with
  | none => p.quantity
  | some t => ((p.get_trades t).map Trade.quantity).sum

/-- The `Book` class: a name and a dict asset → Position. -/
structure Book where
  name : String
  positions : List (String × Position)
deriving DecidableEq

/-- Python `Book.__init__`. -/
def Book.init (name : String) : Book :=
  ⟨name, []⟩

/-- Python `Book.trade_add`: create the asset position lazily, then delegate. -/
def Book.trade_add (b : Book) (t : Trade) : Book :=
  let ps := if containsKey b.positions t.asset then b.positions
            else b.positions ++ [(t.asset, Position.init t.asset)]
  { b with positions := mapAt ps t.asset (fun p => p.trade_add t) }

/-- Python `Book.get_positions`: the dict asset → quantity as of a time. -/
def Book.get_positions (b : Book) (asOf : Option Int) : List (String × Rat) :=
  b.positions.map (fun kv => (kv.1, kv.2.get_quantity asOf))

/-- The `Portfolio` class: a named list of books. -/
structure Portfolio where
  name : String
  books : List Book

/-- Python `Portfolio.net_positions`: fold the books into a `Counter` with
`Counter.update` (additive, zeros retained). -/
def Portfolio.net_positions (P : Portfolio) (asOf : Option Int) :
    List (String × Rat) :=
  P.books.foldl (fun c b => counterUpdate c (b.get_positions asOf)) []

/- Hedger static helpers. -/

/-- Python `Hedger.trades_net_by_position`: counter of quantity by asset. -/
def trades_net_by_position (trades : List Trade) : List (String × Rat) :=
  trades.foldl (fun c t => counterAdd c t.asset t.quantity) []

/-- Python `Hedger.trades_net_by_notional`: counter of quantity*price by asset. -/
def trades_net_by_notional (trades : List Trade) : List (String × Rat) :=
  trades.foldl (fun c t => counterAdd c t.asset (t.quantity * t.price)) []

/-- Python `Hedger.client_trades_by_time`: trades with
`start_time < trade_time ≤ end_time`. -/
def client_trades_by_time (client_trades : List Trade)
    (start_time end_time : Int) : List Trade :=
  client_trades.filter
    (fun t => decide (start_time < t.tradeTime) && decide (t.tradeTime ≤ end_time))

/-- Python `Hedger.recent_client_volume`: notional volume over the trailing
window, raising on a negative window. -/
def recent_client_volume (client_trades : List Trade)
    (sampling_window : Int) (as_of_time : Int) : Except String Rat :=
  if sampling_window < 0 then
    Except.error "sampling_window must be positive number of minutes"
  else
    Except.ok (((client_trades_by_time client_trades
      (as_of_time - sampling_window) as_of_time).map Trade.notional).sum)

/-- Python `Hedger.get_current_strategy`: SLOW when the rolling volume is below
the SLOW threshold, else STEALTH when the summed notional change exceeds
the STEALTH trigger, else NORMAL. -/
def get_current_strategy (client_trades : List Trade) (hedger_time : Int)
    (client_notional_change : List (String × Rat)) : Except String String :=
  match recent_client_volume client_trades slow_time_window hedger_time with
  | Except.error e => Except.error e
  | Except.ok volume =>
    if volume < slow_client_volume_max then Except.ok STRATEGY_SLOW
    else if sumValues client_notional_change > stealth_client_volume_trigger then
      Except.ok STRATEGY_STEALTH
    else Except.ok STRATEGY_NORMAL

/-- Python `Hedger.get_hedge_quantities_normal`: negate every non-zero entry. -/
def get_hedge_quantities_normal (current_positions : List (String × Rat)) :
    List (String × Rat) :=
  (current_positions.filter (fun kv => kv.2 != 0)).map
    (fun kv => (kv.1, (-1) * kv.2))

/-- Length of the shortest list, the number of tuples `zip(*ls)` yields. -/
def pyzipLen {α : Type} (ls : List (List α)) : Nat :=
  match ls with
  | [] => 0
  | l :: rest => rest.foldl (fun m x => min m x.length) l.length

/-- Python `zip(*ls)` as a list of rows, truncated at the shortest list. -/
def pyzip {α : Type} (ls : List (List α)) : List (List α) :=
  (List.range (pyzipLen ls)).map (fun i => ls.filterMap (fun l => l[i]?))

/-- The `multiplier` local of `get_hedge_quantities_stealth`:
`-1 if quantity >= 0 else 1`. -/
def stealth_multiplier (quantity : Rat) : Rat :=
  if quantity ≥ 0 then -1 else 1

/-- Python `Hedger.get_hedge_quantities_stealth`: per asset, `execution_chunks`
copies of the single-asset hedge `{asset: multiplier*quantity/chunks}`,
then the per-asset lists interleaved with `zip`. -/
def get_hedge_quantities_stealth (current_positions : List (String × Rat)) :
    List (List (String × Rat)) :=
  let chunks := stealth_execution_chunks
  let byAsset := current_positions.map (fun kv =>
    List.replicate chunks
      [(kv.1, stealth_multiplier kv.2 * kv.2 / (chunks : Rat))])
  (pyzip byAsset).flatten

/-- Pop the queue front into the result with `Counter.update` semantics,
used when `hedge_quantities` is still the initial `Counter()`. -/
def popMergeCounter (hq : List (String × Rat))
    (q : List (List (String × Rat))) :
    List (String × Rat) × List (List (String × Rat)) :=
  match q with
  | [] => (hq, [])
  | e :: rest => (counterUpdate hq e, rest)

/-- Pop the queue front into the result with plain `dict.update`
semantics, used when `hedge_quantities` was rebound to the plain dict
returned by `get_hedge_quantities_normal`. -/
def popMergeDict (hq : List (String × Rat))
    (q : List (List (String × Rat))) :
    List (String × Rat) × List (List (String × Rat)) :=
  match q with
  | [] => (hq, [])
  | e :: rest => (dictUpdate hq e, rest)

/-- Python `Hedger.get_hedge_quantities`: validate the label, run the
strategy-specific step (NORMAL rebinds the result to a plain dict,
STEALTH appends chunks to the execution queue), then pop one queue entry
into the result.  Returns the result together with the queue left over. -/
def get_hedge_quantities (current_positions : List (String × Rat))
    (client_position_change : List (String × Rat)) (strategy : String)
    (execution_queue : List (List (String × Rat))) :
    Except String (List (String × Rat) × List (List (String × Rat))) :=
  if strategy ∉ SUPPORTED_STRATEGIES then
    Except.error ("Unknown hedging strategy " ++ strategy)
  else if strategy = STRATEGY_NORMAL then
    Except.ok (popMergeDict
      (get_hedge_quantities_normal client_position_change) execution_queue)
  else if strategy = STRATEGY_SLOW then
    Except.ok (popMergeCounter [] execution_queue)
  else if strategy = STRATEGY_STEALTH then
    Except.ok (popMergeCounter []
      (execution_queue ++ get_hedge_quantities_stealth current_positions))
  else
    Except.error ("Unimplemented strategy " ++ strategy)

/-- Python `Exchange.at_market_order`: a trade at the venue close price. -/
def at_market_order (close_prices : String → Rat) (book : String)
    (asset : String) (quantity : Rat) (trade_time : Int) : Trade :=
  ⟨book, trade_time, asset, "USD", quantity, close_prices asset⟩

/-- Python `Hedger.place_hedge_orders`: one market order per entry of the
hedge-quantity mapping, each booked into the hedge book. -/
def place_hedge_orders (hedge_book : Book) (close_prices : String → Rat)
    (hedge_positions : List (String × Rat)) (trade_time : Int) : Book :=
  hedge_positions.foldl
    (fun b kv =>
      b.trade_add (at_market_order close_prices b.name kv.1 kv.2 trade_time))
    hedge_book

/-- Python `Hedger.book_client_trades`: rebook the feed rows of the window into
the client book, returning the rows together with the updated book. -/
def book_client_trades (client_trades : List Trade) (client_book : Book)
    (start_time end_time : Int) : List Trade × Book :=
  let trades_to_book := client_trades_by_time client_trades start_time end_time
  (trades_to_book,
   trades_to_book.foldl
     (fun b r =>
       b.trade_add ⟨b.name, r.tradeTime, r.asset, r.denominated, r.quantity, r.price⟩)
     client_book)

/-- The mutable state of `Hedger.run_hedging`: the loaded feed, the two
books, the execution queue and the simulated clock. -/
structure HedgerState where
  client_trades : List Trade
  client_book : Book
  hedge_book : Book
  execution_queue : List (List (String × Rat))
  time : Int
deriving DecidableEq

/-- One iteration of the `run_hedging` while-loop body: advance the
clock, book the new client trades, compute position and notional
changes, read net positions, select the strategy, compute hedge
quantities and place the orders. -/
def hedger_cycle (close_prices : String → Rat) (s : HedgerState) :
    Except String HedgerState :=
  let hedger_time := s.time + 1
  let booked := book_client_trades s.client_trades s.client_book s.time hedger_time
  let client_position_change := trades_net_by_position booked.1
  let current_positions :=
    (Portfolio.mk "Hedging Portfolio" [booked.2, s.hedge_book]).net_positions none
  let client_notional_change := trades_net_by_notional booked.1
  match get_current_strategy s.client_trades hedger_time client_notional_change with
  | Except.error e => Except.error e
  | Except.ok current_strategy =>
    match get_hedge_quantities current_positions client_position_change
        current_strategy s.execution_queue with
    | Except.error e => Except.error e
    | Except.ok hq =>
      Except.ok { s with
        time := hedger_time,
        client_book := booked.2,
        hedge_book := place_hedge_orders s.hedge_book close_prices hq.1 hedger_time,
        execution_queue := hq.2 }

/-- The guard of the `run_hedging` while-loop:
`hedger_time <= end_time or len(execution_queue) > 0`. -/
def run_condition (end_time : Int) (s : HedgerState) : Bool :=
  decide (s.time ≤ end_time) || !s.execution_queue.isEmpty

/-- Fuelled unfolding of the `run_hedging` while-loop: run cycles while
the guard holds and fuel remains. -/
def run_hedging_aux (close_prices : String → Rat) (end_time : Int) :
    Nat → HedgerState → Except String HedgerState
  | 0, s => Except.ok s
  | Nat.succ n, s =>
    if run_condition end_time s then
      match hedger_cycle close_prices s with
      | Except.error e => Except.error e
      | Except.ok s2 => run_hedging_aux close_prices end_time n s2
    else Except.ok s

/-- Book a list of trades into a position in order (iterated
`Position.trade_add`). -/
def applyTrades (p : Position) (ts : List Trade) : Position :=
  ts.foldl Position.trade_add p

/-- Book a list of trades into a book in order (iterated
`Book.trade_add`). -/
def bookTrades (b : Book) (ts : List Trade) : Book :=
  ts.foldl Book.trade_add b

/-- Evaluate a function on the payload of a successful computation. -/
def exceptEval {α β : Type} (f : α → β) (e : Except String α) : Option β :=
  match e with
  | Except.ok a => some (f a)
  | Except.error _ => none

/-- All trades a book holds for one asset, in booking order. -/
def tradesOfAsset (b : Book) (a : String) : List Trade :=
  match lookup? b.positions a with
  | none => []
  | some p => p.trades

/-! Association-list lemmas. -/

theorem lookup?_append_of_some {α : Type} {m : List (String × α)} {k : String}
    {v : α} (l : List (String × α)) (h : lookup? m k = some v) :
    lookup? (m ++ l) k = some v := by
  induction m with
  | nil => simp [lookup?] at h
  | cons kv rest ih =>
    by_cases hk : kv.1 = k
    · simp only [lookup?, hk, if_true] at h ⊢
      simpa using h
    · simp only [lookup?, hk, if_false] at h ⊢
      exact ih h

theorem lookup?_append_of_none {α : Type} {m : List (String × α)} {k : String}
    (l : List (String × α)) (h : lookup? m k = none) :
    lookup? (m ++ l) k = lookup? l k := by
  induction m with
  | nil => simp
  | cons kv rest ih =>
    by_cases hk : kv.1 = k
    · simp [lookup?, hk] at h
    · simp only [lookup?, hk, if_false] at h ⊢
      exact ih h

theorem lookup?_mapAt {α : Type} (m : List (String × α)) (k a : String)
    (f : α → α) :
    lookup? (mapAt m k f) a
      = if k = a then (lookup? m a).map f else lookup? m a := by
  induction m with
  | nil => simp [mapAt, lookup?]
  | cons kv rest ih =>
    simp only [mapAt, List.map_cons] at ih ⊢
    by_cases h1 : kv.1 = a
    · by_cases h2 : k = a
      · have hk : kv.1 = k := by rw [h1, h2]
        simp [lookup?, h1, h2, hk]
      · have hk : ¬kv.1 = k := by rw [h1]; exact fun hh => h2 hh.symm
        have h2s : ¬a = k := fun hh => h2 hh.symm
        simp [lookup?, h1, h2, hk, h2s]
    · by_cases hk : kv.1 = k
      · have h2 : ¬k = a := fun hh => h1 (hk ▸ hh)
        simp [lookup?, hk, h1, h2, ih]
      · simp [lookup?, hk, h1, ih]

theorem lookup?_eq_none_iff {α : Type} (m : List (String × α)) (k : String) :
    lookup? m k = none ↔ k ∉ m.map Prod.fst := by
  induction m with
  | nil => simp [lookup?]
  | cons kv rest ih =>
    by_cases hk : kv.1 = k
    · simp [lookup?, hk]
    · simp only [lookup?, hk, if_false]
      rw [ih]
      simp only [List.map_cons, List.mem_cons, not_or]
      constructor
      · intro h
        exact ⟨fun hh => hk hh.symm, h⟩
      · intro h
        exact h.2

theorem containsKey_iff {α : Type} (m : List (String × α)) (k : String) :
    containsKey m k = true ↔ k ∈ m.map Prod.fst := by
  rw [containsKey, Option.isSome_iff_ne_none]
  rw [ne_eq, lookup?_eq_none_iff]
  simp

theorem lookup?_dictSet {α : Type} (m : List (String × α)) (k a : String)
    (v : α) :
    lookup? (dictSet m k v) a = if k = a then some v else lookup? m a := by
  unfold dictSet
  by_cases hc : containsKey m k = true
  · rw [if_pos hc, lookup?_mapAt]
    by_cases hka : k = a
    · subst hka
      rcases Option.isSome_iff_exists.mp hc with ⟨w, hw⟩
      simp [hw]
    · simp [hka]
  · rw [if_neg hc]
    have hnone : lookup? m k = none := by
      cases h : lookup? m k with
      | none => rfl
      | some w => exact absurd (by simp [containsKey, h]) hc
    by_cases hka : k = a
    · subst hka
      rw [lookup?_append_of_none _ hnone]
      simp [lookup?]
    · by_cases hma : lookup? m a = none
      · rw [lookup?_append_of_none _ hma, hma]
        simp [lookup?, fun h => hka (Eq.symm h)]
      · rcases Option.ne_none_iff_exists.mp hma with ⟨w, hw⟩
        rw [lookup?_append_of_some _ hw.symm, hw.symm]
        simp [hka]

theorem lookupD_counterAdd (m : List (String × Rat)) (k a : String) (v : Rat) :
    lookupD (counterAdd m k v) a
      = if k = a then lookupD m a + v else lookupD m a := by
  unfold counterAdd lookupD
  rw [lookup?_dictSet]
  by_cases hka : k = a
  · subst hka; simp [lookupD]
  · simp [hka]

theorem containsKey_dictSet {α : Type} (m : List (String × α)) (k a : String)
    (v : α) :
    containsKey (dictSet m k v) a
      = if k = a then true else containsKey m a := by
  unfold containsKey
  rw [lookup?_dictSet]
  by_cases hka : k = a <;> simp [hka]

theorem containsKey_counterAdd (m : List (String × Rat)) (k a : String)
    (v : Rat) :
    containsKey (counterAdd m k v) a
      = if k = a then true else containsKey m a := by
  unfold counterAdd
  exact containsKey_dictSet ..

theorem lookupD_counterUpdate (d : List (String × Rat)) :
    ∀ (c : List (String × Rat)) (a : String),
      (d.map Prod.fst).Nodup →
      lookupD (counterUpdate c d) a = lookupD c a + lookupD d a := by
  induction d with
  | nil => intro c a _; simp [counterUpdate, lookupD, lookup?]
  | cons kv rest ih =>
    intro c a hnd
    simp only [List.map_cons, List.nodup_cons] at hnd
    have step : counterUpdate c (kv :: rest)
        = counterUpdate (counterAdd c kv.1 kv.2) rest := rfl
    rw [step, ih _ a hnd.2, lookupD_counterAdd]
    by_cases hka : kv.1 = a
    · subst hka
      have hrest : lookup? rest kv.1 = none :=
        (lookup?_eq_none_iff rest kv.1).mpr hnd.1
      simp [lookupD, lookup?, hrest]
    · simp [lookupD, lookup?, hka]

theorem containsKey_counterUpdate (d : List (String × Rat)) :
    ∀ (c : List (String × Rat)) (a : String),
      containsKey (counterUpdate c d) a
        = (containsKey c a || d.any (fun kv => kv.1 == a)) := by
  induction d with
  | nil => intro c a; simp [counterUpdate]
  | cons kv rest ih =>
    intro c a
    have step : counterUpdate c (kv :: rest)
        = counterUpdate (counterAdd c kv.1 kv.2) rest := rfl
    rw [step, ih, containsKey_counterAdd]
    by_cases hka : kv.1 = a
    · simp [hka]
    · have hb : (kv.1 == a) = false := beq_eq_false_iff_ne.mpr hka
      simp [hka, hb]

/-! Ledger lemmas. -/

/-- The running quantity agrees with the trade list. -/
def LedgerOk (p : Position) : Prop :=
  p.quantity = (p.trades.map Trade.quantity).sum

theorem ledgerOk_init (a : String) : LedgerOk (Position.init a) := by
  simp [LedgerOk, Position.init]

theorem ledgerOk_trade_add {p : Position} (h : LedgerOk p) (t : Trade) :
    LedgerOk (p.trade_add t) := by
  simp [LedgerOk, Position.trade_add] at h ⊢
  rw [h]

theorem ledgerOk_applyTrades (ts : List Trade) :
    ∀ (p : Position), LedgerOk p → LedgerOk (applyTrades p ts) := by
  induction ts with
  | nil => intro p h; exact h
  | cons t rest ih =>
    intro p h
    exact ih (p.trade_add t) (ledgerOk_trade_add h t)

theorem applyTrades_trades (ts : List Trade) :
    ∀ (p : Position), (applyTrades p ts).trades = p.trades ++ ts := by
  induction ts with
  | nil => intro p; simp [applyTrades]
  | cons t rest ih =>
    intro p
    have : applyTrades p (t :: rest) = applyTrades (p.trade_add t) rest := rfl
    rw [this, ih]
    simp [Position.trade_add]

theorem name_trade_add (b : Book) (t : Trade) : (b.trade_add t).name = b.name :=
  rfl

theorem lookup?_book_trade_add (b : Book) (t : Trade) (a : String) :
    lookup? (b.trade_add t).positions a
      = if t.asset = a then
          some (((lookup? b.positions a).getD (Position.init a)).trade_add t)
        else lookup? b.positions a := by
  unfold Book.trade_add
  by_cases hc : containsKey b.positions t.asset = true
  · simp only [hc, if_true]
    rw [lookup?_mapAt]
    by_cases hta : t.asset = a
    · subst hta
      rcases Option.isSome_iff_exists.mp hc with ⟨p, hp⟩
      simp [hp]
    · simp [hta]
  · rw [if_neg hc, lookup?_mapAt]
    have hnone : lookup? b.positions t.asset = none := by
      cases h : lookup? b.positions t.asset with
      | none => rfl
      | some w => exact absurd (by simp [containsKey, h]) hc
    by_cases hta : t.asset = a
    · subst hta
      rw [lookup?_append_of_none _ hnone, hnone]
      simp [lookup?]
    · by_cases hma : lookup? b.positions a = none
      · rw [lookup?_append_of_none _ hma, hma]
        simp [lookup?, hta, fun h => hta (Eq.symm h)]
      · rcases Option.ne_none_iff_exists.mp hma with ⟨w, hw⟩
        rw [lookup?_append_of_some _ hw.symm, hw.symm]
        simp [hta]

/-- Every position of a book satisfies the ledger equation. -/
def BookOk (b : Book) : Prop :=
  ∀ (a : String) (p : Position), lookup? b.positions a = some p → LedgerOk p

theorem bookOk_init (n : String) : BookOk (Book.init n) := by
  intro a p h
  simp [Book.init, lookup?] at h

theorem bookOk_trade_add {b : Book} (h : BookOk b) (t : Trade) :
    BookOk (b.trade_add t) := by
  intro a p hp
  rw [lookup?_book_trade_add] at hp
  by_cases hta : t.asset = a
  · rw [if_pos hta] at hp
    cases hp
    cases hl : lookup? b.positions a with
    | none => simpa [hl] using ledgerOk_trade_add (ledgerOk_init a) t
    | some w => simpa [hl] using ledgerOk_trade_add (h a w hl) t
  · rw [if_neg hta] at hp
    exact h a p hp

theorem bookOk_bookTrades (ts : List Trade) :
    ∀ (b : Book), BookOk b → BookOk (bookTrades b ts) := by
  induction ts with
  | nil => intro b h; exact h
  | cons t rest ih =>
    intro b h
    exact ih (b.trade_add t) (bookOk_trade_add h t)

/-- Claim C4.  For every sequence of trades booked into a `Position` via
`trade_add`, directly or through `Book.trade_add`, the
`quantity` attribute equals the sum of the quantities of the trades in
its trade list after every booking. -/
theorem ledger_invariant :
    (∀ (a : String) (ts : List Trade),
      (applyTrades (Position.init a) ts).quantity
        = ((applyTrades (Position.init a) ts).trades.map Trade.quantity).sum)
    ∧ (∀ (bname : String) (ts : List Trade) (a : String) (p : Position),
      lookup? (bookTrades (Book.init bname) ts).positions a = some p →
      p.quantity = (p.trades.map Trade.quantity).sum) := by
  constructor
  · intro a ts
    exact ledgerOk_applyTrades ts (Position.init a) (ledgerOk_init a)
  · intro bname ts a p hp
    exact bookOk_bookTrades ts (Book.init bname) (bookOk_init bname) a p hp

/-- A sample client trade used by concrete witnesses. -/
def trW : Trade :=
  ⟨"CLIENT BOOK", 0, "BTC", "USD", 1, 100⟩

/-- Witness for C4: the invariant at a concrete one-trade book. -/
theorem ledger_invariant_witness :
    (Position.trade_add (Position.init "BTC") trW).quantity
      = ((Position.trade_add (Position.init "BTC") trW).trades.map
          Trade.quantity).sum :=
  ledger_invariant.2 "B" [trW] "BTC"
    (Position.trade_add (Position.init "BTC") trW) rfl

/-- Claim C10.  For a position built by bookings, once the as-of time
covers every booked trade the cached live total and the recompute-from-
history implementation agree. -/
theorem live_equals_asof :
    ∀ (a : String) (ts : List Trade) (t : Int),
      (∀ tr ∈ ts, tr.tradeTime ≤ t) →
      (applyTrades (Position.init a) ts).get_quantity none
        = (applyTrades (Position.init a) ts).get_quantity (some t) := by
  intro a ts t h
  have hq := ledgerOk_applyTrades ts (Position.init a) (ledgerOk_init a)
  have htr := applyTrades_trades ts (Position.init a)
  rw [LedgerOk] at hq
  have hfilter :
      (applyTrades (Position.init a) ts).trades.filter
        (fun tr => decide (tr.tradeTime ≤ t))
        = (applyTrades (Position.init a) ts).trades := by
    rw [List.filter_eq_self]
    intro tr hmem
    rw [htr] at hmem
    simp only [Position.init, List.nil_append] at hmem
    exact decide_eq_true (h tr hmem)
  simp only [Position.get_quantity, Position.get_trades]
  rw [hfilter, hq]

/-- Witness for C10: concrete agreement at a covering time. -/
theorem live_equals_asof_witness :
    (applyTrades (Position.init "BTC") [trW]).get_quantity none
      = (applyTrades (Position.init "BTC") [trW]).get_quantity (some 5) :=
  live_equals_asof "BTC" [trW] 5 (by intro tr htr; simp [trW] at htr; simp [htr])

theorem sum_filter_le_eq_sum_ite (t : Int) (l : List Trade) :
    ((l.filter (fun tr => decide (tr.tradeTime ≤ t))).map Trade.quantity).sum
      = (l.map (fun tr => if tr.tradeTime ≤ t then tr.quantity else 0)).sum := by
  induction l with
  | nil => simp
  | cons tr rest ih =>
    by_cases hc : tr.tradeTime ≤ t
    · simp [List.filter_cons, hc, ih]
    · simp [List.filter_cons, hc, ih]

/-- Claim C6.  `get_quantity` with an as-of time sums exactly the trades
with timestamp at most that time (inclusive boundary), and is therefore
stable across any interval containing no trade timestamp. -/
theorem asof_boundary_and_stability :
    (∀ (p : Position) (t : Int),
      p.get_quantity (some t)
        = (p.trades.map
            (fun tr => if tr.tradeTime ≤ t then tr.quantity else 0)).sum)
    ∧ (∀ (p : Position) (t1 t2 : Int), t1 ≤ t2 →
      (∀ tr ∈ p.trades, ¬(t1 < tr.tradeTime ∧ tr.tradeTime ≤ t2)) →
      p.get_quantity (some t1) = p.get_quantity (some t2)) := by
  constructor
  · intro p t
    simp only [Position.get_quantity, Position.get_trades]
    exact sum_filter_le_eq_sum_ite t p.trades
  · intro p t1 t2 h12 hgap
    simp only [Position.get_quantity, Position.get_trades]
    rw [sum_filter_le_eq_sum_ite, sum_filter_le_eq_sum_ite]
    congr 1
    apply List.map_congr_left
    intro tr hmem
    by_cases hle : tr.tradeTime ≤ t1
    · rw [if_pos hle, if_pos (le_trans hle h12)]
    · have h2 : ¬tr.tradeTime ≤ t2 := by
        intro hle2
        exact hgap tr hmem ⟨lt_of_not_le hle, hle2⟩
      rw [if_neg hle, if_neg h2]

/-- Witness for C6: a concrete position is stable over a trade-free
interval. -/
theorem asof_boundary_and_stability_witness :
    (Position.mk "BTC" 1 [trW]).get_quantity (some 1)
      = (Position.mk "BTC" 1 [trW]).get_quantity (some 3) :=
  asof_boundary_and_stability.2 (Position.mk "BTC" 1 [trW]) 1 3
    (by norm_num)
    (by intro tr htr; simp [trW] at htr; simp [htr, trW])

/-! Portfolio aggregation lemmas. -/

theorem keys_mapAt {α : Type} (m : List (String × α)) (k : String)
    (f : α → α) : (mapAt m k f).map Prod.fst = m.map Prod.fst := by
  induction m with
  | nil => simp [mapAt]
  | cons kv rest ih =>
    by_cases hk : kv.1 = k
    · simpa [mapAt, hk] using ih
    · simpa [mapAt, hk] using ih

theorem keys_book_trade_add (b : Book) (t : Trade) :
    (b.trade_add t).positions.map Prod.fst
      = if containsKey b.positions t.asset then b.positions.map Prod.fst
        else b.positions.map Prod.fst ++ [t.asset] := by
  unfold Book.trade_add
  by_cases hc : containsKey b.positions t.asset = true
  · rw [if_pos hc, if_pos hc, keys_mapAt]
  · rw [if_neg hc, if_neg hc, keys_mapAt]
    simp

theorem containsKey_book_trade_add (b : Book) (t : Trade) (a : String) :
    containsKey (b.trade_add t).positions a
      = if t.asset = a then true else containsKey b.positions a := by
  unfold containsKey
  rw [lookup?_book_trade_add]
  by_cases hta : t.asset = a <;> simp [hta]

theorem keysNodup_bookTrades (ts : List Trade) :
    ∀ (b : Book), (b.positions.map Prod.fst).Nodup →
      ((bookTrades b ts).positions.map Prod.fst).Nodup := by
  induction ts with
  | nil => intro b h; exact h
  | cons t rest ih =>
    intro b h
    apply ih
    rw [keys_book_trade_add]
    by_cases hc : containsKey b.positions t.asset = true
    · rw [if_pos hc]; exact h
    · rw [if_neg hc]
      have hnotin : t.asset ∉ b.positions.map Prod.fst := by
        intro hmem
        exact hc ((containsKey_iff _ _).mpr hmem)
      exact List.Nodup.append h (List.nodup_singleton _)
        (fun x hx hx2 => by
          simp only [List.mem_singleton] at hx2
          exact hnotin (hx2 ▸ hx))

theorem lookup?_get_positions (b : Book) (asOf : Option Int) (a : String) :
    lookup? (b.get_positions asOf) a
      = (lookup? b.positions a).map (fun p => p.get_quantity asOf) := by
  unfold Book.get_positions
  induction b.positions with
  | nil => simp [lookup?]
  | cons kv rest ih =>
    by_cases hk : kv.1 = a
    · simp [lookup?, hk]
    · simpa [lookup?, hk] using ih

theorem containsKey_get_positions (b : Book) (asOf : Option Int) (a : String) :
    containsKey (b.get_positions asOf) a = containsKey b.positions a := by
  unfold containsKey
  rw [lookup?_get_positions]
  cases lookup? b.positions a <;> simp

theorem keys_get_positions (b : Book) (asOf : Option Int) :
    (b.get_positions asOf).map Prod.fst = b.positions.map Prod.fst := by
  unfold Book.get_positions
  induction b.positions with
  | nil => simp
  | cons kv rest ih => simp [ih]

theorem containsKey_bookTrades (ts : List Trade) :
    ∀ (b : Book) (a : String),
      containsKey (bookTrades b ts).positions a
        = (containsKey b.positions a || ts.any (fun tr => tr.asset == a)) := by
  induction ts with
  | nil => intro b a; simp [bookTrades]
  | cons t rest ih =>
    intro b a
    have step : bookTrades b (t :: rest) = bookTrades (b.trade_add t) rest := rfl
    rw [step, ih, containsKey_book_trade_add]
    by_cases hta : t.asset = a
    · simp [hta]
    · have hb : (t.asset == a) = false := beq_eq_false_iff_ne.mpr hta
      simp [hta, hb]

theorem any_keys_eq_containsKey {α : Type} (m : List (String × α))
    (a : String) : m.any (fun kv => kv.1 == a) = containsKey m a := by
  induction m with
  | nil => simp [containsKey, lookup?]
  | cons kv rest ih =>
    by_cases hk : kv.1 = a
    · simp [containsKey, lookup?, hk]
    · have hb : (kv.1 == a) = false := beq_eq_false_iff_ne.mpr hk
      simpa [containsKey, lookup?, hk, hb] using ih

theorem net_fold_lookupD (asOf : Option Int) (a : String) :
    ∀ (books : List Book) (c : List (String × Rat)),
      (∀ b ∈ books, ((b.get_positions asOf).map Prod.fst).Nodup) →
      lookupD (books.foldl (fun c b => counterUpdate c (b.get_positions asOf)) c) a
        = lookupD c a
          + (books.map (fun b => lookupD (b.get_positions asOf) a)).sum := by
  intro books
  induction books with
  | nil => intro c _; simp
  | cons b rest ih =>
    intro c hnd
    simp only [List.foldl_cons, List.map_cons, List.sum_cons]
    rw [ih _ (fun b2 h2 => hnd b2 (List.mem_cons_of_mem b h2))]
    rw [lookupD_counterUpdate _ _ _ (hnd b (List.mem_cons_self b rest))]
    ring

theorem net_fold_containsKey (asOf : Option Int) (a : String) :
    ∀ (books : List Book) (c : List (String × Rat)),
      containsKey (books.foldl (fun c b => counterUpdate c (b.get_positions asOf)) c) a
        = (containsKey c a
            || books.any (fun b => containsKey b.positions a)) := by
  intro books
  induction books with
  | nil => intro c; simp
  | cons b rest ih =>
    intro c
    simp only [List.foldl_cons, List.any_cons]
    rw [ih, containsKey_counterUpdate, any_keys_eq_containsKey,
      containsKey_get_positions]
    cases containsKey c a <;> cases containsKey b.positions a <;> simp

/-- Claim C5.  Portfolio aggregation is key-wise additive over the member
books, and an asset key is present in the aggregate exactly when some
member book posted a trade in that asset, even when the quantities sum
to zero. -/
theorem portfolio_additivity :
    ∀ (pname : String) (bdata : List (String × List Trade))
      (asOf : Option Int) (a : String),
      lookupD ((Portfolio.mk pname
          (bdata.map (fun nd => bookTrades (Book.init nd.1) nd.2))).net_positions
            asOf) a
        = ((bdata.map (fun nd => bookTrades (Book.init nd.1) nd.2)).map
            (fun b => lookupD (b.get_positions asOf) a)).sum
      ∧ (containsKey ((Portfolio.mk pname
          (bdata.map (fun nd => bookTrades (Book.init nd.1) nd.2))).net_positions
            asOf) a = true
          ↔ ∃ nd ∈ bdata, ∃ tr ∈ nd.2, tr.asset = a) := by
  intro pname bdata asOf a
  have hnd : ∀ b ∈ bdata.map (fun nd => bookTrades (Book.init nd.1) nd.2),
      ((b.get_positions asOf).map Prod.fst).Nodup := by
    intro b hb
    rcases List.mem_map.mp hb with ⟨nd, _, rfl⟩
    rw [keys_get_positions]
    exact keysNodup_bookTrades nd.2 (Book.init nd.1) (by simp [Book.init])
  constructor
  · unfold Portfolio.net_positions
    rw [net_fold_lookupD asOf a _ [] hnd]
    simp [lookupD, lookup?]
  · unfold Portfolio.net_positions
    rw [net_fold_containsKey]
    have h0 : containsKey ([] : List (String × Rat)) a = false := rfl
    rw [h0, Bool.false_or, List.any_eq_true]
    constructor
    · rintro ⟨b, hb, hkey⟩
      rcases List.mem_map.mp hb with ⟨nd, hnd2, rfl⟩
      rw [containsKey_bookTrades] at hkey
      have h1 : containsKey (Book.init nd.1).positions a = false := rfl
      rw [h1, Bool.false_or, List.any_eq_true] at hkey
      rcases hkey with ⟨tr, htr, hbeq⟩
      exact ⟨nd, hnd2, tr, htr, by simpa using hbeq⟩
    · rintro ⟨nd, hnd2, tr, htr, hasset⟩
      refine ⟨bookTrades (Book.init nd.1) nd.2,
        List.mem_map.mpr ⟨nd, hnd2, rfl⟩, ?_⟩
      rw [containsKey_bookTrades]
      have h1 : containsKey (Book.init nd.1).positions a = false := rfl
      rw [h1, Bool.false_or, List.any_eq_true]
      exact ⟨tr, htr, by simpa using hasset⟩

/-- Claim C3.  Whenever the rolling client notional volume over the
trailing SLOW window is strictly below the SLOW threshold, the strategy
selector returns SLOW regardless of the notional change. -/
theorem slow_priority :
    ∀ (client_trades : List Trade) (hedger_time : Int)
      (client_notional_change : List (String × Rat)) (v : Rat),
      recent_client_volume client_trades slow_time_window hedger_time
        = Except.ok v →
      v < slow_client_volume_max →
      get_current_strategy client_trades hedger_time client_notional_change
        = Except.ok STRATEGY_SLOW := by
  intro client_trades hedger_time client_notional_change v hvol hlt
  unfold get_current_strategy
  rw [hvol]
  simp [hlt]

/-- Witness for C3: the selector returns SLOW on an empty feed. -/
theorem slow_priority_witness :
    get_current_strategy [] 0 [] = Except.ok STRATEGY_SLOW :=
  slow_priority [] 0 [] 0 rfl (by norm_num [slow_client_volume_max])

/-! Strategy validation lemmas. -/

theorem selector_ok (client_trades : List Trade) (t : Int)
    (nc : List (String × Rat)) :
    ∃ strat, get_current_strategy client_trades t nc = Except.ok strat
      ∧ strat ∈ SUPPORTED_STRATEGIES := by
  unfold get_current_strategy
  have hrec : recent_client_volume client_trades slow_time_window t
      = Except.ok (((client_trades_by_time client_trades
          (t - slow_time_window) t).map Trade.notional).sum) := by
    unfold recent_client_volume
    rw [if_neg (by norm_num [slow_time_window])]
  simp only [hrec]
  by_cases h1 : ((client_trades_by_time client_trades
      (t - slow_time_window) t).map Trade.notional).sum < slow_client_volume_max
  · rw [if_pos h1]
    exact ⟨STRATEGY_SLOW, rfl, by simp [SUPPORTED_STRATEGIES]⟩
  · rw [if_neg h1]
    by_cases h2 : sumValues nc > stealth_client_volume_trigger
    · rw [if_pos h2]
      exact ⟨STRATEGY_STEALTH, rfl, by simp [SUPPORTED_STRATEGIES]⟩
    · rw [if_neg h2]
      exact ⟨STRATEGY_NORMAL, rfl, by simp [SUPPORTED_STRATEGIES]⟩

theorem ghq_ok (strategy : String) (h : strategy ∈ SUPPORTED_STRATEGIES) :
    ∀ (cp cpc : List (String × Rat)) (q : List (List (String × Rat))),
      ∃ r, get_hedge_quantities cp cpc strategy q = Except.ok r := by
  intro cp cpc q
  unfold get_hedge_quantities
  rw [if_neg (not_not_intro h)]
  have h3 : strategy = STRATEGY_SLOW ∨ strategy = STRATEGY_NORMAL
      ∨ strategy = STRATEGY_STEALTH := by
    simpa [SUPPORTED_STRATEGIES] using h
  rcases h3 with h1 | h1 | h1
  · subst h1
    rw [if_neg (by decide), if_pos rfl]
    exact ⟨_, rfl⟩
  · subst h1
    rw [if_pos rfl]
    exact ⟨_, rfl⟩
  · subst h1
    rw [if_neg (by decide), if_neg (by decide), if_pos rfl]
    exact ⟨_, rfl⟩

/-- Claim C7, amended.  The hedge-quantity calculator rejects every
strategy label outside {SLOW, NORMAL, STEALTH} with the error
"Unknown hedging strategy", accepts every label inside the set, and the
strategy selector takes no strategy label at all: it never fails with
that error and always returns one of the three supported labels. -/
theorem unknown_strategy_amended :
    (∀ (strategy : String), strategy ∉ SUPPORTED_STRATEGIES →
      ∀ (cp cpc : List (String × Rat)) (q : List (List (String × Rat))),
        get_hedge_quantities cp cpc strategy q
          = Except.error ("Unknown hedging strategy " ++ strategy))
    ∧ (∀ (strategy : String), strategy ∈ SUPPORTED_STRATEGIES →
      ∀ (cp cpc : List (String × Rat)) (q : List (List (String × Rat))),
        ∃ r, get_hedge_quantities cp cpc strategy q = Except.ok r)
    ∧ (∀ (client_trades : List Trade) (t : Int) (nc : List (String × Rat)),
      ∃ strat, get_current_strategy client_trades t nc = Except.ok strat
        ∧ strat ∈ SUPPORTED_STRATEGIES) := by
  refine ⟨?_, fun s hs => ghq_ok s hs, fun ct t nc => selector_ok ct t nc⟩
  intro s hs cp cpc q
  unfold get_hedge_quantities
  rw [if_pos hs]

/-- Witness for C7: the calculator rejects the label BAD and accepts
SLOW. -/
theorem unknown_strategy_amended_witness :
    get_hedge_quantities [] [] "BAD" []
      = Except.error ("Unknown hedging strategy " ++ "BAD")
    ∧ ∃ r, get_hedge_quantities [] [] STRATEGY_SLOW [] = Except.ok r :=
  ⟨unknown_strategy_amended.1 "BAD" (by decide) [] [] [],
   unknown_strategy_amended.2.1 STRATEGY_SLOW (by decide) [] [] []⟩

/-- Counterexample for C7 as stated: the strategy selector
`get_current_strategy` accepts no strategy label (its arguments are a
time and a notional-change mapping), so no call to it can fail with an
unknown-strategy validation error; this concrete invocation succeeds
and returns SLOW. -/
theorem selector_takes_no_label_cex :
    get_current_strategy [] 7 [("BTC", 999999999)] = Except.ok STRATEGY_SLOW := by
  norm_num [get_current_strategy, recent_client_volume, slow_time_window,
    slow_client_volume_max, client_trades_by_time]

/-- Claim C1, code evaluation at the failing input.  For the negative
position -10 the STEALTH calculator emits five chunks of -2 each
(because `multiplier` is set to 1 when the quantity is negative), so the
chunks sum to -10, the position itself, not to +10, its negation. -/
theorem stealth_sign_bug_eval :
    get_hedge_quantities_stealth [("BTC", -10)]
      = [[("BTC", -2)], [("BTC", -2)], [("BTC", -2)], [("BTC", -2)], [("BTC", -2)]]
    ∧ ((get_hedge_quantities_stealth [("BTC", -10)]).map
        (fun e => lookupD e "BTC")).sum = -10 := by
  constructor
  · norm_num [get_hedge_quantities_stealth, stealth_multiplier,
      stealth_execution_chunks, pyzip, pyzipLen, List.range_succ,
      List.replicate_succ, List.filterMap_cons]
  · norm_num [get_hedge_quantities_stealth, stealth_multiplier,
      stealth_execution_chunks, pyzip, pyzipLen, List.range_succ,
      List.replicate_succ, List.filterMap_cons, lookupD, lookup?]

/-- Claim C2, code evaluation at the failing input.  Under NORMAL the
result of `get_hedge_quantities_normal` is a plain dict, so merging the
popped queue entry uses replacing `dict.update` semantics: with client
position change {BTC: 5} (normal hedge {BTC: -5}) and queue front
{BTC: -2} the result is {BTC: -2}, not the additive {BTC: -7}. -/
theorem normal_merge_replaces_eval :
    get_hedge_quantities [] [("BTC", 5)] STRATEGY_NORMAL [[("BTC", -2)]]
      = Except.ok ([("BTC", -2)], []) := by
  norm_num +decide [get_hedge_quantities, get_hedge_quantities_normal,
    popMergeDict, dictUpdate, dictSet, containsKey, lookup?, mapAt,
    STRATEGY_NORMAL, STRATEGY_SLOW, STRATEGY_STEALTH, SUPPORTED_STRATEGIES]

/-! Order placement lemmas. -/

theorem tradesOfAsset_trade_add (b : Book) (t : Trade) (a : String) :
    tradesOfAsset (b.trade_add t) a
      = if t.asset = a then tradesOfAsset b a ++ [t] else tradesOfAsset b a := by
  unfold tradesOfAsset
  rw [lookup?_book_trade_add]
  by_cases hta : t.asset = a
  · rw [if_pos hta, if_pos hta]
    cases hl : lookup? b.positions a with
    | none => simp [hl, Position.init, Position.trade_add]
    | some p => simp [hl, Position.trade_add]
  · rw [if_neg hta, if_neg hta]

/-- Claim C8, amended.  `place_hedge_orders` books into the hedge book
exactly one market-order trade per entry of the hedge-quantity mapping,
with matching asset and quantity — including entries whose quantity is
zero; only assets absent from the mapping receive no order. -/
theorem orders_per_entry :
    ∀ (hq : List (String × Rat)) (b : Book) (prices : String → Rat)
      (t : Int) (a : String),
      tradesOfAsset (place_hedge_orders b prices hq t) a
        = tradesOfAsset b a
          ++ (hq.filter (fun kv => kv.1 == a)).map
              (fun kv => at_market_order prices b.name kv.1 kv.2 t) := by
  intro hq
  induction hq with
  | nil =>
    intro b prices t a
    simp [place_hedge_orders]
  | cons kv rest ih =>
    intro b prices t a
    have step : place_hedge_orders b prices (kv :: rest) t
        = place_hedge_orders
            (b.trade_add (at_market_order prices b.name kv.1 kv.2 t))
            prices rest t := rfl
    rw [step, ih, name_trade_add, tradesOfAsset_trade_add]
    by_cases hka : kv.1 = a
    · have hb : (kv.1 == a) = true := by simp [hka]
      simp [List.filter_cons, hb, at_market_order, hka]
    · have hb : (kv.1 == a) = false := beq_eq_false_iff_ne.mpr hka
      simp [List.filter_cons, hb, at_market_order, hka]

/-- Client feed for the zero-quantity-order scenario: one very large BTC
buy (triggering STEALTH) and two offsetting ETH trades, leaving an ETH
key with net position 0 in the snapshot. -/
def c8_trades : List Trade :=
  [⟨"CLIENT", 0, "BTC", "USD", 1, 20000000⟩,
   ⟨"CLIENT", 0, "ETH", "USD", 1, 100⟩,
   ⟨"CLIENT", 0, "ETH", "USD", -1, 100⟩]

/-- Hedger start state for the zero-quantity-order scenario. -/
def c8_state : HedgerState :=
  ⟨c8_trades, Book.init "CLIENT BOOK", Book.init "HEDGE BOOK", [], -1⟩

/-- Counterexample for C8 as stated: in the second simulated cycle the
driver pops the STEALTH chunk {ETH: 0} produced by the zero net ETH
position and books a hedge trade of quantity 0 into the hedge book —
an order placed for an asset whose hedge quantity is zero. -/
theorem zero_quantity_order_cex :
    exceptEval (fun s => (tradesOfAsset s.hedge_book "ETH").map Trade.quantity)
      (run_hedging_aux (fun _ => (100 : Rat)) 0 2 c8_state) = some [0] := by
  norm_num +decide [run_hedging_aux, run_condition, hedger_cycle, book_client_trades,
    client_trades_by_time, trades_net_by_position, trades_net_by_notional,
    Portfolio.net_positions, Book.get_positions, Book.trade_add, Book.init,
    Position.init, Position.trade_add, Position.get_quantity, Position.get_trades,
    get_current_strategy, recent_client_volume, slow_time_window,
    slow_client_volume_max, stealth_client_volume_trigger, sumValues,
    get_hedge_quantities, get_hedge_quantities_normal, get_hedge_quantities_stealth,
    stealth_multiplier, stealth_execution_chunks, pyzip, pyzipLen,
    List.range_succ, List.replicate_succ, List.filterMap_cons, Function.comp,
    popMergeCounter, popMergeDict, counterUpdate, counterAdd, dictUpdate, dictSet,
    containsKey, lookup?, lookupD, mapAt, place_hedge_orders, at_market_order,
    exceptEval, tradesOfAsset, c8_state, c8_trades, Trade.notional,
    STRATEGY_NORMAL, STRATEGY_SLOW, STRATEGY_STEALTH, SUPPORTED_STRATEGIES]

/-! Simulation-driver lemmas. -/

theorem hedger_cycle_ok (prices : String → Rat) (s : HedgerState) :
    ∃ s2, hedger_cycle prices s = Except.ok s2
      ∧ s2.client_trades = s.client_trades ∧ s2.time = s.time + 1 := by
  obtain ⟨strat, hsel, hmem⟩ := selector_ok s.client_trades (s.time + 1)
    (trades_net_by_notional
      (book_client_trades s.client_trades s.client_book s.time (s.time + 1)).1)
  obtain ⟨r, hghq⟩ := ghq_ok strat hmem
    ((Portfolio.mk "Hedging Portfolio"
      [(book_client_trades s.client_trades s.client_book s.time (s.time + 1)).2,
       s.hedge_book]).net_positions none)
    (trades_net_by_position
      (book_client_trades s.client_trades s.client_book s.time (s.time + 1)).1)
    s.execution_queue
  refine ⟨HedgerState.mk s.client_trades
      (book_client_trades s.client_trades s.client_book s.time (s.time + 1)).2
      (place_hedge_orders s.hedge_book prices r.1 (s.time + 1))
      r.2 (s.time + 1), ?_, rfl, rfl⟩
  simp only [hedger_cycle, hsel, hghq]

theorem client_trades_by_time_empty (client_trades : List Trade)
    (e t1 t2 : Int) (h : ∀ tr ∈ client_trades, tr.tradeTime ≤ e)
    (he : e ≤ t1) : client_trades_by_time client_trades t1 t2 = [] := by
  unfold client_trades_by_time
  rw [List.filter_eq_nil_iff]
  intro tr htr
  have h2 := h tr htr
  simp only [Bool.and_eq_true, decide_eq_true_eq, not_and]
  intro h1
  omega

theorem book_client_trades_empty (client_trades : List Trade)
    (client_book : Book) (t1 t2 : Int)
    (h : client_trades_by_time client_trades t1 t2 = []) :
    book_client_trades client_trades client_book t1 t2 = ([], client_book) := by
  unfold book_client_trades
  rw [h]
  rfl

theorem trades_net_by_position_nil : trades_net_by_position [] = [] := rfl

theorem trades_net_by_notional_nil : trades_net_by_notional [] = [] := rfl

theorem popMergeCounter_snd (hq : List (String × Rat))
    (q : List (List (String × Rat))) : (popMergeCounter hq q).2 = q.tail := by
  cases q <;> rfl

theorem popMergeDict_snd (hq : List (String × Rat))
    (q : List (List (String × Rat))) : (popMergeDict hq q).2 = q.tail := by
  cases q <;> rfl

theorem ghq_slow_eq (cp cpc : List (String × Rat))
    (q : List (List (String × Rat))) :
    get_hedge_quantities cp cpc STRATEGY_SLOW q
      = Except.ok (popMergeCounter [] q) := by
  unfold get_hedge_quantities
  rw [if_neg (by decide), if_neg (by decide), if_pos rfl]

theorem ghq_normal_empty_eq (cp : List (String × Rat))
    (q : List (List (String × Rat))) :
    get_hedge_quantities cp [] STRATEGY_NORMAL q
      = Except.ok (popMergeDict [] q) := by
  unfold get_hedge_quantities
  rw [if_neg (by decide), if_pos rfl]
  rfl

theorem hedger_cycle_drain (prices : String → Rat) (e : Int) (s : HedgerState)
    (hinv : ∀ tr ∈ s.client_trades, tr.tradeTime ≤ e) (ht : e < s.time) :
    ∃ s2, hedger_cycle prices s = Except.ok s2
      ∧ s2.client_trades = s.client_trades ∧ s2.time = s.time + 1
      ∧ s2.execution_queue = s.execution_queue.tail := by
  have hbt : client_trades_by_time s.client_trades s.time (s.time + 1) = [] :=
    client_trades_by_time_empty s.client_trades e s.time (s.time + 1) hinv
      (le_of_lt ht)
  have hbce : book_client_trades s.client_trades s.client_book s.time (s.time + 1)
      = ([], s.client_book) :=
    book_client_trades_empty s.client_trades s.client_book s.time (s.time + 1) hbt
  have hsel2 : get_current_strategy s.client_trades (s.time + 1) []
        = Except.ok STRATEGY_SLOW
      ∨ get_current_strategy s.client_trades (s.time + 1) []
        = Except.ok STRATEGY_NORMAL := by
    unfold get_current_strategy
    have hrec : recent_client_volume s.client_trades slow_time_window (s.time + 1)
        = Except.ok (((client_trades_by_time s.client_trades
            ((s.time + 1) - slow_time_window) (s.time + 1)).map
              Trade.notional).sum) := by
      unfold recent_client_volume
      rw [if_neg (by norm_num [slow_time_window])]
    simp only [hrec]
    by_cases h1 : ((client_trades_by_time s.client_trades
        ((s.time + 1) - slow_time_window) (s.time + 1)).map
          Trade.notional).sum < slow_client_volume_max
    · left
      rw [if_pos h1]
    · right
      rw [if_neg h1,
        if_neg (by norm_num [sumValues, stealth_client_volume_trigger])]
  rcases hsel2 with hsel | hsel
  · refine ⟨HedgerState.mk s.client_trades s.client_book
        (place_hedge_orders s.hedge_book prices
          (popMergeCounter [] s.execution_queue).1 (s.time + 1))
        (popMergeCounter [] s.execution_queue).2 (s.time + 1),
      ?_, rfl, rfl, popMergeCounter_snd [] s.execution_queue⟩
    simp only [hedger_cycle, hbce, trades_net_by_position_nil,
      trades_net_by_notional_nil, hsel, ghq_slow_eq]
  · refine ⟨HedgerState.mk s.client_trades s.client_book
        (place_hedge_orders s.hedge_book prices
          (popMergeDict [] s.execution_queue).1 (s.time + 1))
        (popMergeDict [] s.execution_queue).2 (s.time + 1),
      ?_, rfl, rfl, popMergeDict_snd [] s.execution_queue⟩
    simp only [hedger_cycle, hbce, trades_net_by_position_nil,
      trades_net_by_notional_nil, hsel, ghq_normal_empty_eq]

theorem run_condition_false_iff (e : Int) (s : HedgerState) :
    run_condition e s = false ↔ e < s.time ∧ s.execution_queue = [] := by
  unfold run_condition
  cases hq : s.execution_queue with
  | nil => simp [hq]
  | cons x rest => simp [hq]

theorem run_hedging_aux_succ_true {prices : String → Rat} {e : Int}
    {s s2 : HedgerState} (n : Nat) (hc : run_condition e s = true)
    (hcy : hedger_cycle prices s = Except.ok s2) :
    run_hedging_aux prices e (n + 1) s = run_hedging_aux prices e n s2 := by
  have h1 : run_hedging_aux prices e (n + 1) s
      = if run_condition e s then
          match hedger_cycle prices s with
          | Except.error err => Except.error err
          | Except.ok t => run_hedging_aux prices e n t
        else Except.ok s := rfl
  rw [h1, if_pos hc, hcy]

theorem drain_terminates (prices : String → Rat) (e : Int) :
    ∀ (k : Nat) (s : HedgerState),
      (∀ tr ∈ s.client_trades, tr.tradeTime ≤ e) → e < s.time →
      s.execution_queue.length ≤ k →
      ∃ n s2, run_hedging_aux prices e n s = Except.ok s2
        ∧ run_condition e s2 = false := by
  intro k
  induction k with
  | zero =>
    intro s hinv ht hlen
    have hq : s.execution_queue = [] :=
      List.length_eq_zero.mp (Nat.le_zero.mp hlen)
    exact ⟨0, s, rfl, (run_condition_false_iff e s).mpr ⟨ht, hq⟩⟩
  | succ k ih =>
    intro s hinv ht hlen
    by_cases hq : s.execution_queue = []
    · exact ⟨0, s, rfl, (run_condition_false_iff e s).mpr ⟨ht, hq⟩⟩
    · have hc : run_condition e s = true := by
        cases hq2 : s.execution_queue with
        | nil => exact absurd hq2 hq
        | cons x rest => simp [run_condition, hq2]
      obtain ⟨s2, hcy, hct, htime, hqueue⟩ := hedger_cycle_drain prices e s hinv ht
      have hpos : 0 < s.execution_queue.length := List.length_pos.mpr hq
      have hlen2 : s2.execution_queue.length ≤ k := by
        rw [hqueue, List.length_tail]
        omega
      obtain ⟨n, s3, hrun, hcond⟩ := ih s2 (by rw [hct]; exact hinv)
        (by rw [htime]; omega) hlen2
      exact ⟨n + 1, s3, by rw [run_hedging_aux_succ_true n hc hcy]; exact hrun,
        hcond⟩

theorem hedging_terminates (prices : String → Rat) (e : Int) :
    ∀ (a : Nat) (s : HedgerState),
      (∀ tr ∈ s.client_trades, tr.tradeTime ≤ e) →
      (e + 1 - s.time).toNat ≤ a →
      ∃ n s2, run_hedging_aux prices e n s = Except.ok s2
        ∧ run_condition e s2 = false := by
  intro a
  induction a with
  | zero =>
    intro s hinv ha
    have ht : e < s.time := by omega
    exact drain_terminates prices e s.execution_queue.length s hinv ht le_rfl
  | succ a ih =>
    intro s hinv ha
    by_cases ht : e < s.time
    · exact drain_terminates prices e s.execution_queue.length s hinv ht le_rfl
    · push_neg at ht
      have hc : run_condition e s = true := by
        unfold run_condition
        simp [ht]
      obtain ⟨s2, hcy, hct, htime⟩ := hedger_cycle_ok prices s
      have ha2 : (e + 1 - s2.time).toNat ≤ a := by
        rw [htime]
        omega
      obtain ⟨n, s3, hrun, hcond⟩ := ih s2 (by rw [hct]; exact hinv) ha2
      exact ⟨n + 1, s3, by rw [run_hedging_aux_succ_true n hc hcy]; exact hrun,
        hcond⟩

/-- Claim C9, amended.  For every feed whose trades all lie at or before
`end_time`, the simulation loop terminates; the loop guard becomes false
exactly when the clock has passed `end_time` (the latest client trade
timestamp, as set by `load_client_trades`) and the execution queue is
empty; and once the clock has passed `end_time` every further cycle
consumes exactly one queue entry and enqueues none, so the loop runs
exactly as many extra cycles as the queue then holds — which can exceed
`execution_chunks`, because one STEALTH trigger enqueues
`execution_chunks` entries per asset in the position snapshot. -/
theorem termination_and_drain :
    (∀ (prices : String → Rat) (end_time : Int) (s : HedgerState),
      (∀ tr ∈ s.client_trades, tr.tradeTime ≤ end_time) →
      ∃ n s2, run_hedging_aux prices end_time n s = Except.ok s2
        ∧ run_condition end_time s2 = false)
    ∧ (∀ (end_time : Int) (s : HedgerState),
      run_condition end_time s = false
        ↔ end_time < s.time ∧ s.execution_queue = [])
    ∧ (∀ (prices : String → Rat) (end_time : Int) (s : HedgerState),
      (∀ tr ∈ s.client_trades, tr.tradeTime ≤ end_time) → end_time < s.time →
      ∃ s2, hedger_cycle prices s = Except.ok s2
        ∧ s2.execution_queue = s.execution_queue.tail
        ∧ s2.time = s.time + 1) := by
  refine ⟨?_, fun e s => run_condition_false_iff e s, ?_⟩
  · intro prices e s hinv
    exact hedging_terminates prices e (e + 1 - s.time).toNat s hinv le_rfl
  · intro prices e s hinv ht
    obtain ⟨s2, hcy, _, htime, hqueue⟩ := hedger_cycle_drain prices e s hinv ht
    exact ⟨s2, hcy, hqueue, htime⟩

/-- Witness for C9: the loop terminates on an already-drained state. -/
theorem termination_and_drain_witness :
    ∃ n s2, run_hedging_aux (fun _ => (0 : Rat)) 0 n
        (HedgerState.mk [] (Book.init "C") (Book.init "H") [] 1)
      = Except.ok s2 ∧ run_condition 0 s2 = false :=
  termination_and_drain.1 (fun _ => (0 : Rat)) 0
    (HedgerState.mk [] (Book.init "C") (Book.init "H") [] 1)
    (by intro tr htr; simp at htr)

/-- Client feed for the drain-bound scenario: two huge same-minute
trades in different assets, so one STEALTH trigger enqueues
`execution_chunks` chunks for each of the two assets. -/
def c9_trades : List Trade :=
  [⟨"CLIENT", 0, "BTC", "USD", 1, 20000000⟩,
   ⟨"CLIENT", 0, "ETH", "USD", 1, 20000000⟩]

/-- Hedger start state for the drain-bound scenario. -/
def c9_state : HedgerState :=
  ⟨c9_trades, Book.init "CLIENT BOOK", Book.init "HEDGE BOOK", [], -1⟩

/-- Counterexample for C9 as stated: the latest client trade is at
minute 0, yet after six cycles — one reaching minute 0 plus
`execution_chunks` = 5 drain cycles — the loop guard still holds (the
queue began the drain with 9 entries), so the loop runs more than
`execution_chunks` cycles past the latest client trade timestamp. -/
theorem drain_exceeds_chunks_cex :
    exceptEval (run_condition 0)
      (run_hedging_aux (fun _ => (100 : Rat)) 0 6 c9_state) = some true := by
  norm_num +decide [run_hedging_aux, run_condition, hedger_cycle, book_client_trades,
    client_trades_by_time, trades_net_by_position, trades_net_by_notional,
    Portfolio.net_positions, Book.get_positions, Book.trade_add, Book.init,
    Position.init, Position.trade_add, Position.get_quantity, Position.get_trades,
    get_current_strategy, recent_client_volume, slow_time_window,
    slow_client_volume_max, stealth_client_volume_trigger, sumValues,
    get_hedge_quantities, get_hedge_quantities_normal, get_hedge_quantities_stealth,
    stealth_multiplier, stealth_execution_chunks, pyzip, pyzipLen,
    List.range_succ, List.replicate_succ, List.filterMap_cons, Function.comp,
    popMergeCounter, popMergeDict, counterUpdate, counterAdd, dictUpdate, dictSet,
    containsKey, lookup?, lookupD, mapAt, place_hedge_orders, at_market_order,
    exceptEval, c9_state, c9_trades, Trade.notional,
    STRATEGY_NORMAL, STRATEGY_SLOW, STRATEGY_STEALTH, SUPPORTED_STRATEGIES]

end AutoHedger
